import Mathlib

/-!
# Verification of the `Basic` replication protocol of fantoch

Shallow embedding of `fantoch/src/protocol/basic.rs` (the `Basic` protocol:
its per-command info table, the `MStoreAck` and `MCommit` handlers) and of
`fantoch/src/executor/basic.rs` (the `BasicExecutor`), together with proofs
about commit emission at the fast-quorum threshold, duplicate-message
behaviour, and execution idempotence.

Types that the crate defines outside the embedded files (`Dot`, `Rifl`,
`Command`, `Config`, `BaseProcess`, the key-value store) are modelled from
the specification document, as indicated on each definition.
-/

namespace Fantoch

/-- Modelled from the spec: `ProcessId` is an unsigned 64-bit identifier
(file `id.rs`, absent from the sources); widths never matter here, so we use
`Nat`. -/
abbrev ProcessId := Nat

/-- Modelled from the spec: `ShardId` is an unsigned 64-bit identifier. -/
abbrev ShardId := Nat

/-- Modelled from the spec: `ClientId` is an unsigned 64-bit identifier. -/
abbrev ClientId := Nat

/-- Key of the key-value store (`kvs.rs`, absent from the sources): a string. -/
abbrev Key := String

/-- Value stored in the key-value store: a string. -/
abbrev Value := String

/-- Modelled from the spec: `Rifl` is a pair `(ClientId, seq)` identifying a
client request (file `id.rs`, absent from the sources). -/
structure Rifl where
  source : ClientId
  seq : Nat
deriving DecidableEq

/-- Modelled from the spec: `Dot` is a pair `(ProcessId, seq)` identifying a
command instance (file `id.rs`, absent from the sources). -/
structure Dot where
  source : ProcessId
  seq : Nat
deriving DecidableEq

/-- Modelled from the spec: the operations of the key-value store
(file `kvs.rs`, absent from the sources): `Get`, `Put(value)`, `Delete`,
`PutIfAbsent(value)`. -/
inductive KVOp where
  | get
  | put (value : Value)
  | delete
  | putIfAbsent (value : Value)
deriving DecidableEq

/-- Modelled from the spec: a `Command` is a `Rifl` plus a mapping
`ShardId → (Key → KVOp)` (file `command.rs`, absent from the sources);
the mapping is embedded as an association list. -/
structure Command where
  rifl : Rifl
  shard_ops : List (ShardId × List (Key × KVOp))
deriving DecidableEq

/-- Modelled from the spec: `Command::into_iter(shard_id)` iterates over the
`(key, op)` pairs that the command holds for the given shard. -/
def Command.intoIter (cmd : Command) (shard : ShardId) : List (Key × KVOp) :=
  ((cmd.shard_ops.find? (fun e => decide (e.1 = shard))).map Prod.snd).getD []

/-- Modelled from the spec: `Config` holds `n` (number of processes), `f`
(max faults) and the optional GC interval (file `config.rs`, absent from the
sources). -/
structure Config where
  n : Nat
  f : Nat
  gc_interval : Option Nat
deriving DecidableEq

/-- Modelled from the spec: `Config::basic_quorum_size` is the `Basic`
fast-quorum size `⌈(n + 1) / 2⌉` (file `config.rs`, absent from the
sources). -/
def Config.basic_quorum_size (config : Config) : Nat :=
  (config.n + 1 + 1) / 2

/-- Modelled from the spec: the part of `BaseProcess` (file `base.rs`,
absent from the sources) that `Basic` reads: its identifier, shard, config,
and `all()`, the set of all processes of the shard. -/
structure BaseProcess where
  process_id : ProcessId
  shard_id : ShardId
  config : Config
  all : Finset ProcessId
deriving DecidableEq

/-- `BasicInfo` (`protocol/basic.rs`): the per-dot state, an optional command
payload and the set of acking processes (the Rust `HashSet<ProcessId>`
becomes a `Finset`). -/
structure BasicInfo where
  cmd : Option Command
  acks : Finset ProcessId
deriving DecidableEq

/-- `Info::new` for `BasicInfo` (`protocol/basic.rs`): no command, no acks. -/
def BasicInfo.newInfo : BasicInfo :=
  { cmd := none, acks := ∅ }

/-- `CommandsInfo` (`protocol/info.rs`): the dot-indexed table of
`BasicInfo` (the Rust `HashMap<Dot, BasicInfo>` becomes an association list
holding at most one entry per dot). -/
structure CommandsInfo where
  dot_to_info : List (Dot × BasicInfo)
deriving DecidableEq

/-- `CommandsInfo::get` (`protocol/info.rs`): the info associated with the
dot, a fresh `Info::new` if none is associated yet. -/
def CommandsInfo.get (cmds : CommandsInfo) (dot : Dot) : BasicInfo :=
  ((cmds.dot_to_info.find? (fun e => decide (e.1 = dot))).map Prod.snd).getD
    BasicInfo.newInfo

/-- Writing back the (in Rust, mutably borrowed) info of a dot: the single
entry of the dot is replaced. -/
def CommandsInfo.set (cmds : CommandsInfo) (dot : Dot) (info : BasicInfo) :
    CommandsInfo :=
  ⟨(dot, info) :: cmds.dot_to_info.filter (fun e => decide (e.1 ≠ dot))⟩

/-- `CommandsInfo::gc_single` (`protocol/info.rs`): removes the entry of the
dot (the Rust `assert!` that it was present holds at the one call site,
which inserts the entry just before). -/
def CommandsInfo.gc_single (cmds : CommandsInfo) (dot : Dot) : CommandsInfo :=
  ⟨cmds.dot_to_info.filter (fun e => decide (e.1 ≠ dot))⟩

/-- `Message` (`protocol/basic.rs`): the protocol messages of `Basic`.
The GC payloads (`VClock`, stability ranges) are embedded as lists. -/
inductive Message where
  | MStore (dot : Dot) (cmd : Command)
  | MStoreAck (dot : Dot)
  | MCommit (dot : Dot) (cmd : Command)
  | MCommitDot (dot : Dot)
  | MGarbageCollection (committed : List (ProcessId × Nat))
  | MStable (stable : List (ProcessId × Nat × Nat))
deriving DecidableEq

/-- `Action` (`protocol/mod.rs`), specialised to `Basic`: send a message to
a target set, or forward a message to oneself. -/
inductive Action where
  | ToSend (target : Finset ProcessId) (msg : Message)
  | ToForward (msg : Message)
deriving DecidableEq

/-- `BasicExecutionInfo` (`executor/basic.rs`): one `(rifl, key, op)` entry
handed to the executor. -/
structure BasicExecutionInfo where
  rifl : Rifl
  key : Key
  op : KVOp
deriving DecidableEq

/-- `Basic` (`protocol/basic.rs`): the protocol state. Emitted actions and
execution infos are accumulated in order of emission. -/
structure Basic where
  bp : BaseProcess
  cmds : CommandsInfo
  to_processes : List Action
  to_executors : List BasicExecutionInfo
deriving DecidableEq

/-- `Basic::gc_running` (`protocol/basic.rs`): whether a GC interval is
configured. -/
def Basic.gc_running (p : Basic) : Bool :=
  p.bp.config.gc_interval.isSome

/-- `Basic::handle_mstore` (`protocol/basic.rs`): record the command under
the dot and reply `MStoreAck` to the sender. -/
def Basic.handle_mstore (p : Basic) (sender : ProcessId) (dot : Dot)
    (cmd : Command) : Basic :=
  let info := p.cmds.get dot
  let info := { info with cmd := some cmd }
  { p with
    cmds := p.cmds.set dot info
    to_processes := p.to_processes ++
      [Action.ToSend {sender} (Message.MStoreAck dot)] }

/-- `Basic::handle_mstoreack` (`protocol/basic.rs`): insert the sender into
the ack set; when the ack count equals `basic_quorum_size`, broadcast
`MCommit{dot, cmd}` to all processes. The Rust
`info.cmd.clone().expect("command should exist")` panic is embedded as
`none`. -/
def Basic.handle_mstoreack (p : Basic) (sender : ProcessId) (dot : Dot) :
    Option Basic :=
  let info := p.cmds.get dot
  let info := { info with acks := insert sender info.acks }
  let cmds := p.cmds.set dot info
  if info.acks.card = p.bp.config.basic_quorum_size then
    match info.cmd with
    | some cmd =>
        some { p with
          cmds := cmds
          to_processes := p.to_processes ++
            [Action.ToSend p.bp.all (Message.MCommit dot cmd)] }
    | none => none
  else
    some { p with cmds := cmds }

/-- The batch of execution info that `Basic::handle_mcommit` creates: one
entry per key the command accesses on this shard. -/
def mcommitBatch (shard : ShardId) (cmd : Command) : List BasicExecutionInfo :=
  (cmd.intoIter shard).map (fun e => BasicExecutionInfo.mk cmd.rifl e.1 e.2)

/-- `Basic::handle_mcommit` (`protocol/basic.rs`): record the command,
append one execution-info entry per key to `to_executors`, then either
forward `MCommitDot` to self (GC running) or drop the dot's info. -/
def Basic.handle_mcommit (p : Basic) (dot : Dot) (cmd : Command) : Basic :=
  let info := p.cmds.get dot
  let info := { info with cmd := some cmd }
  let cmds := p.cmds.set dot info
  let p := { p with
    cmds := cmds
    to_executors := p.to_executors ++ mcommitBatch p.bp.shard_id cmd }
  if p.gc_running then
    { p with to_processes := p.to_processes ++
        [Action.ToForward (Message.MCommitDot dot)] }
  else
    { p with cmds := p.cmds.gc_single dot }

/-- Modelled from the spec: the key-value store (file `kvs.rs`, absent from
the sources) is a mapping `Key → Value`, embedded as an association list. -/
abbrev KVStore := List (Key × Value)

/-- Current value of a key in the store. -/
def KVStore.getValue (store : KVStore) (k : Key) : Option Value :=
  (store.find? (fun e => decide (e.1 = k))).map Prod.snd

/-- Store a value under a key, replacing any previous binding. -/
def KVStore.setValue (store : KVStore) (k : Key) (v : Value) : KVStore :=
  (k, v) :: store.filter (fun e => decide (e.1 ≠ k))

/-- Remove the binding of a key. -/
def KVStore.removeKey (store : KVStore) (k : Key) : KVStore :=
  store.filter (fun e => decide (e.1 ≠ k))

/-- Modelled from the spec: `KVStore::execute(key, op, rifl)` (file
`kvs.rs`, absent from the sources): `Get` returns the current value,
`Put(v)` stores and returns the previous value, `Delete` removes and
returns the previous value, `PutIfAbsent(v)` stores only if unset. Returns
the new store and the per-key result. -/
def KVStore.execute (store : KVStore) (k : Key) (op : KVOp) :
    KVStore × Option Value :=
  match op with
  | KVOp.get => (store, store.getValue k)
  | KVOp.put v => (store.setValue k v, store.getValue k)
  | KVOp.delete => (store.removeKey k, store.getValue k)
  | KVOp.putIfAbsent v =>
      match store.getValue k with
      | some old => (store, some old)
      | none => (store.setValue k v, none)

/-- `ExecutorResult` (`executor/mod.rs`): a per-key partial result
`(rifl, key, op_result)` handed back to the client. -/
structure ExecutorResult where
  rifl : Rifl
  key : Key
  op_result : Option Value
deriving DecidableEq

/-- `BasicExecutor` (`executor/basic.rs`): a key-value store plus the
results accumulated for clients. -/
structure BasicExecutor where
  store : KVStore
  to_clients : List ExecutorResult
deriving DecidableEq

/-- `BasicExecutor::handle` (`executor/basic.rs`): execute the op in the
store and push the per-key result for the client. -/
def BasicExecutor.handle (e : BasicExecutor) (info : BasicExecutionInfo) :
    BasicExecutor :=
  let r := e.store.execute info.key info.op
  { store := r.1
    to_clients := e.to_clients ++ [ExecutorResult.mk info.rifl info.key r.2] }

/-- Handling a list of execution infos in order. -/
def BasicExecutor.handleAll (e : BasicExecutor)
    (infos : List BasicExecutionInfo) : BasicExecutor :=
  infos.foldl BasicExecutor.handle e

/-- Handling a sequence of `MStoreAck{dot}` messages, in order, from the
given senders (`none` when a step panics). -/
def Basic.runAcks (p : Basic) (dot : Dot) : List ProcessId → Option Basic
  | [] => some p
  | sender :: rest =>
      match p.handle_mstoreack sender dot with
      | some p' => p'.runAcks dot rest
      | none => none

/-- Whether an action is a sent `MCommit` for the given dot. -/
def isMCommitFor (dot : Dot) : Action → Bool
  | Action.ToSend _ (Message.MCommit d _) => decide (d = dot)
  | _ => false

/-- The `MCommit` sends for a dot among the actions emitted so far. -/
def Basic.mcommitsFor (p : Basic) (dot : Dot) : List Action :=
  p.to_processes.filter (isMCommitFor dot)

/-- The ack set currently recorded for a dot. -/
def Basic.acksOf (p : Basic) (dot : Dot) : Finset ProcessId :=
  (p.cmds.get dot).acks

/-- The command currently recorded for a dot. -/
def Basic.cmdOf (p : Basic) (dot : Dot) : Option Command :=
  (p.cmds.get dot).cmd


/-- A three-process, one-fault configuration with GC enabled, as in the
`basic_flow` test of `protocol/basic.rs`. -/
def testConfig : Config := ⟨3, 1, some 50⟩

/-- Process 1 of shard 0 under `testConfig`, knowing processes 1, 2, 3. -/
def testBp : BaseProcess := ⟨1, 0, testConfig, {1, 2, 3}⟩

/-- The first dot of process 1. -/
def testDot : Dot := ⟨1, 1⟩

/-- A one-key command of client 7 on shard 0. -/
def testCmd : Command := ⟨⟨7, 1⟩, [(0, [("k", KVOp.put "v")])]⟩

/-- Coordinator state for `testDot` right after handling its own `MStore`:
the command is recorded under the dot, no acks yet, nothing emitted. -/
def testBasic : Basic :=
  ⟨testBp, ⟨[(testDot, ⟨some testCmd, ∅⟩)]⟩, [], []⟩


/-- Reading back the info just written for a dot yields exactly that info. -/
theorem CommandsInfo.get_set_self (cmds : CommandsInfo) (dot : Dot)
    (info : BasicInfo) : (cmds.set dot info).get dot = info := by
  simp [CommandsInfo.get, CommandsInfo.set, List.find?_cons_of_pos]

/-- Characterisation of `Basic::handle_mstoreack` when the command of the
dot is recorded: the sender is inserted into the ack set and `MCommit` is
broadcast to `bp.all` exactly when the resulting ack count equals the
quorum size. -/
theorem handle_mstoreack_of_cmd (p : Basic) (sender : ProcessId) (dot : Dot)
    (c : Command) (hcmd : p.cmdOf dot = some c) :
    p.handle_mstoreack sender dot =
      some { p with
        cmds := p.cmds.set dot ⟨some c, insert sender (p.acksOf dot)⟩
        to_processes := p.to_processes ++
          (if (insert sender (p.acksOf dot)).card
              = p.bp.config.basic_quorum_size then
            [Action.ToSend p.bp.all (Message.MCommit dot c)]
          else []) } := by
  have h1 : p.cmds.get dot = ⟨some c, p.acksOf dot⟩ := by
    rw [← hcmd]; rfl
  simp only [Basic.handle_mstoreack, h1]
  by_cases h : (insert sender (p.acksOf dot)).card
      = p.bp.config.basic_quorum_size
  · rw [if_pos h, if_pos h]
  · rw [if_neg h, if_neg h, List.append_nil]


/-- Splitting a run of `MStoreAck` handling at an append. -/
theorem runAcks_append (dot : Dot) (l1 l2 : List ProcessId) :
    ∀ p : Basic, p.runAcks dot (l1 ++ l2)
      = (p.runAcks dot l1).bind (fun q => q.runAcks dot l2) := by
  induction l1 with
  | nil => intro p; rfl
  | cons f rest ih =>
      intro p
      show (match p.handle_mstoreack f dot with
        | some p' => p'.runAcks dot (rest ++ l2)
        | none => none) = _
      cases h : p.handle_mstoreack f dot with
      | some p' => simp [Basic.runAcks, h, ih p']
      | none => simp [Basic.runAcks, h]

/-- While the distinct senders seen so far stay below the quorum size, a run
of `MStoreAck` handling succeeds, only grows the ack set, and emits no
action at all. -/
theorem runAcks_below_quorum (dot : Dot) (c : Command) :
    ∀ (froms : List ProcessId) (p : Basic),
      p.cmdOf dot = some c →
      (p.acksOf dot ∪ froms.toFinset).card < p.bp.config.basic_quorum_size →
      ∃ p', p.runAcks dot froms = some p' ∧
        p'.bp = p.bp ∧
        p'.cmdOf dot = some c ∧
        p'.acksOf dot = p.acksOf dot ∪ froms.toFinset ∧
        p'.to_processes = p.to_processes := by
  intro froms
  induction froms with
  | nil =>
      intro p hcmd _
      exact ⟨p, rfl, rfl, hcmd, by simp, rfl⟩
  | cons f rest ih =>
      intro p hcmd hcard
      have hsub : insert f (p.acksOf dot) ⊆
          p.acksOf dot ∪ (f :: rest).toFinset := by
        intro a ha
        rcases Finset.mem_insert.mp ha with h | h
        · subst h; simp
        · exact Finset.mem_union_left _ h
      have hne : (insert f (p.acksOf dot)).card ≠
          p.bp.config.basic_quorum_size := by
        have := Finset.card_le_card hsub
        omega
      have hstep := handle_mstoreack_of_cmd p f dot c hcmd
      rw [if_neg hne, List.append_nil] at hstep
      have hrun : p.runAcks dot (f :: rest) =
          Basic.runAcks { p with
            cmds := p.cmds.set dot ⟨some c, insert f (p.acksOf dot)⟩ }
            dot rest := by
        show (match p.handle_mstoreack f dot with
          | some p' => p'.runAcks dot rest
          | none => none) = _
        rw [hstep]
      set p1 : Basic := { p with
        cmds := p.cmds.set dot ⟨some c, insert f (p.acksOf dot)⟩ } with hp1
      have hcmd1 : p1.cmdOf dot = some c := by
        show (p1.cmds.get dot).cmd = some c
        rw [hp1]
        show ((p.cmds.set dot ⟨some c, insert f (p.acksOf dot)⟩).get dot).cmd
          = some c
        rw [CommandsInfo.get_set_self]
      have hacks1 : p1.acksOf dot = insert f (p.acksOf dot) := by
        show (p1.cmds.get dot).acks = _
        rw [hp1]
        show ((p.cmds.set dot ⟨some c, insert f (p.acksOf dot)⟩).get dot).acks
          = _
        rw [CommandsInfo.get_set_self]
      have hunion : p1.acksOf dot ∪ rest.toFinset
          = p.acksOf dot ∪ (f :: rest).toFinset := by
        rw [hacks1]
        simp [Finset.insert_union, Finset.union_insert]
      have hcard1 : (p1.acksOf dot ∪ rest.toFinset).card
          < p1.bp.config.basic_quorum_size := by
        rw [hunion]
        exact hcard
      obtain ⟨p', hrun', hbp', hcmd', hacks', htp'⟩ := ih p1 hcmd1 hcard1
      refine ⟨p', ?_, hbp', hcmd', ?_, htp'⟩
      · rw [hrun]; exact hrun'
      · rw [hacks', hunion]


/-- An `MCommit` send for a dot passes the `mcommitsFor` filter. -/
theorem isMCommitFor_mcommit (dot : Dot) (target : Finset ProcessId)
    (c : Command) :
    isMCommitFor dot (Action.ToSend target (Message.MCommit dot c)) = true := by
  simp [isMCommitFor]

/-- C1: For every dot handled by a `Basic` coordinator that has recorded
the dot's command, an incoming stream of `MStoreAck{dot}` messages makes
the coordinator emit the `MCommit{dot, cmd}` broadcast to all shard
processes exactly at the point where the set of distinct `ProcessId`s from
which an ack was received reaches the fast-quorum size
`basic_quorum_size = ⌈(n+1)/2⌉` (two acks for n = 3, f = 1); at every
earlier point, no `MCommit` for that dot has been emitted. -/
theorem basic_c1_commit_exactly_at_quorum (p : Basic) (dot : Dot)
    (c : Command) (froms : List ProcessId)
    (hcmd : p.cmdOf dot = some c)
    (hacks : p.acksOf dot = ∅)
    (hmc : p.mcommitsFor dot = []) :
    (froms.toFinset.card < p.bp.config.basic_quorum_size →
      (p.runAcks dot froms).map (fun q => q.mcommitsFor dot) = some []) ∧
    (∀ k, k + 1 ≤ froms.length →
      (froms.take k).toFinset.card < p.bp.config.basic_quorum_size →
      (froms.take (k + 1)).toFinset.card = p.bp.config.basic_quorum_size →
      (p.runAcks dot (froms.take (k + 1))).map (fun q => q.mcommitsFor dot)
        = some [Action.ToSend p.bp.all (Message.MCommit dot c)]) := by
  constructor
  · intro hlt
    have hcard : (p.acksOf dot ∪ froms.toFinset).card
        < p.bp.config.basic_quorum_size := by
      rw [hacks, Finset.empty_union]; exact hlt
    obtain ⟨p', hrun, _, _, _, htp⟩ :=
      runAcks_below_quorum dot c froms p hcmd hcard
    have hmc' : p'.mcommitsFor dot = [] := by
      unfold Basic.mcommitsFor
      rw [htp]
      exact hmc
    rw [hrun]
    simp [hmc']
  · intro k hk hlt heq
    have hklen : k < froms.length := by omega
    have hksucc : froms.take (k + 1)
        = froms.take k ++ [froms.get ⟨k, hklen⟩] := by
      rw [List.take_succ, List.getElem?_eq_getElem hklen]
      rfl
    have hcard : (p.acksOf dot ∪ (froms.take k).toFinset).card
        < p.bp.config.basic_quorum_size := by
      rw [hacks, Finset.empty_union]; exact hlt
    obtain ⟨p1, hrun1, hbp1, hcmd1, hacks1, htp1⟩ :=
      runAcks_below_quorum dot c (froms.take k) p hcmd hcard
    have hinsert : insert (froms.get ⟨k, hklen⟩) (p1.acksOf dot)
        = (froms.take (k + 1)).toFinset := by
      rw [hacks1, hacks, Finset.empty_union, hksucc, List.toFinset_append]
      simp
      rw [Finset.insert_eq, Finset.union_comm]
    have hcond : (insert (froms.get ⟨k, hklen⟩) (p1.acksOf dot)).card
        = p1.bp.config.basic_quorum_size := by
      rw [hinsert, hbp1]; exact heq
    have hstep := handle_mstoreack_of_cmd p1 (froms.get ⟨k, hklen⟩) dot c hcmd1
    rw [if_pos hcond] at hstep
    rw [hksucc, runAcks_append, hrun1]
    have hsingle : p1.runAcks dot [froms.get ⟨k, hklen⟩] = some
        { p1 with
          cmds := p1.cmds.set dot
            ⟨some c, insert (froms.get ⟨k, hklen⟩) (p1.acksOf dot)⟩
          to_processes := p1.to_processes ++
            [Action.ToSend p1.bp.all (Message.MCommit dot c)] } := by
      show (match p1.handle_mstoreack (froms.get ⟨k, hklen⟩) dot with
        | some p' => p'.runAcks dot []
        | none => none) = _
      rw [hstep]
      rfl
    rw [Option.some_bind, hsingle]
    have hfilter : (p1.to_processes ++
        [Action.ToSend p1.bp.all (Message.MCommit dot c)]).filter
          (isMCommitFor dot)
        = [Action.ToSend p1.bp.all (Message.MCommit dot c)] := by
      rw [List.filter_append]
      have h1 : p1.to_processes.filter (isMCommitFor dot) = [] := by
        have : p1.mcommitsFor dot = [] := by
          unfold Basic.mcommitsFor
          rw [htp1]
          exact hmc
        exact this
      rw [h1]
      simp [isMCommitFor_mcommit]
    simp only [Option.map_some']
    simp only [Basic.mcommitsFor]
    rw [hfilter, hbp1]


/-- Witness for C1 at n = 3, f = 1: the quorum size is 2, the run of acks
from processes 1 and 2 emits no `MCommit` after one ack and exactly the
`MCommit` broadcast to all three processes at the second ack. -/
theorem basic_c1_commit_exactly_at_quorum_witness :
    testBasic.cmdOf testDot = some testCmd ∧
    testBasic.acksOf testDot = ∅ ∧
    testBasic.mcommitsFor testDot = [] ∧
    testConfig.basic_quorum_size = 2 ∧
    (([1, 2] : List ProcessId).take 1).toFinset.card
      < testBasic.bp.config.basic_quorum_size ∧
    (([1, 2] : List ProcessId).take 2).toFinset.card
      = testBasic.bp.config.basic_quorum_size ∧
    (testBasic.runAcks testDot (([1, 2] : List ProcessId).take 2)).map
        (fun q => q.mcommitsFor testDot)
      = some [Action.ToSend testBasic.bp.all
          (Message.MCommit testDot testCmd)] :=
  ⟨by decide, by decide, by decide, by decide, by decide, by decide,
    (basic_c1_commit_exactly_at_quorum testBasic testDot testCmd [1, 2]
      (by decide) (by decide) (by decide)).2 1 (by decide) (by decide)
      (by decide)⟩

/-- C2 as stated is false on the code: starting from the coordinator state
for `testDot` (quorum size 2), acks from processes 1 and 2 emit one
`MCommit`; a late duplicate ack from process 1 leaves the ack set
deduplicated at two elements, yet a second `MCommit` for the dot is
emitted. -/
theorem basic_c2_counterexample :
    (testBasic.runAcks testDot [1, 2]).map
        (fun q => (q.mcommitsFor testDot).length) = some 1 ∧
    (testBasic.runAcks testDot [1, 2, 1]).map
        (fun q => ((q.mcommitsFor testDot).length, (q.acksOf testDot).card))
      = some (2, 2) :=
  ⟨by decide, by decide⟩

/-- C2 (amended): the ack set deduplicates `MStoreAck` senders by
`ProcessId` — a duplicate ack leaves the recorded set unchanged — but a
late duplicate ack handled while the recorded ack count equals the
fast-quorum size (as it does right after `MCommit` was emitted, while the
dot's info is still present) causes a second `MCommit` for that dot to be
emitted; a duplicate handled at any other ack count emits nothing. -/
theorem basic_c2_duplicate_ack_behaviour (p : Basic) (sender : ProcessId)
    (dot : Dot) (c : Command)
    (hmem : sender ∈ p.acksOf dot) (hcmd : p.cmdOf dot = some c) :
    (p.handle_mstoreack sender dot).map (fun q => q.acksOf dot)
      = some (p.acksOf dot) ∧
    ((p.acksOf dot).card = p.bp.config.basic_quorum_size →
      (p.handle_mstoreack sender dot).map (fun q => q.mcommitsFor dot)
        = some (p.mcommitsFor dot ++
            [Action.ToSend p.bp.all (Message.MCommit dot c)])) ∧
    ((p.acksOf dot).card ≠ p.bp.config.basic_quorum_size →
      (p.handle_mstoreack sender dot).map (fun q => q.mcommitsFor dot)
        = some (p.mcommitsFor dot)) := by
  have hins : insert sender (p.acksOf dot) = p.acksOf dot :=
    Finset.insert_eq_self.mpr hmem
  have hstep := handle_mstoreack_of_cmd p sender dot c hcmd
  rw [hins] at hstep
  refine ⟨?_, ?_, ?_⟩
  · rw [hstep]
    simp only [Option.map_some']
    congr 1
    show ((p.cmds.set dot ⟨some c, p.acksOf dot⟩).get dot).acks = _
    rw [CommandsInfo.get_set_self]
  · intro hq
    rw [if_pos hq] at hstep
    rw [hstep]
    simp only [Option.map_some']
    simp only [Basic.mcommitsFor]
    rw [List.filter_append]
    congr 1
    simp [isMCommitFor_mcommit]
  · intro hq
    rw [if_neg hq, List.append_nil] at hstep
    rw [hstep]
    simp only [Option.map_some']
    simp only [Basic.mcommitsFor]

/-- Coordinator state for `testDot` right after the acks of the fast quorum
{1, 2} were handled and `MCommit` was emitted (the dot's info not yet
garbage-collected). -/
def dupBasic : Basic :=
  ⟨testBp, ⟨[(testDot, ⟨some testCmd, {1, 2}⟩)]⟩,
    [Action.ToSend {1, 2, 3} (Message.MCommit testDot testCmd)], []⟩

/-- Witness for the amended C2: in `dupBasic` the duplicate ack of process
1 keeps the ack set unchanged yet appends a second `MCommit` broadcast. -/
theorem basic_c2_duplicate_ack_behaviour_witness :
    1 ∈ dupBasic.acksOf testDot ∧
    dupBasic.cmdOf testDot = some testCmd ∧
    (dupBasic.acksOf testDot).card = dupBasic.bp.config.basic_quorum_size ∧
    (dupBasic.handle_mstoreack 1 testDot).map
        (fun q => q.mcommitsFor testDot)
      = some (dupBasic.mcommitsFor testDot ++
          [Action.ToSend dupBasic.bp.all (Message.MCommit testDot testCmd)]) :=
  ⟨by decide, by decide, by decide,
    (basic_c2_duplicate_ack_behaviour dupBasic 1 testDot testCmd (by decide)
      (by decide)).2.1 (by decide)⟩

/-- `Basic::handle_mcommit` always appends exactly the per-key batch to
`to_executors`, whether or not GC is running. -/
theorem handle_mcommit_to_executors (p : Basic) (dot : Dot) (cmd : Command) :
    (p.handle_mcommit dot cmd).to_executors
      = p.to_executors ++ mcommitBatch p.bp.shard_id cmd := by
  simp only [Basic.handle_mcommit]
  split <;> rfl

/-- `Basic::handle_mcommit` never changes the base process. -/
theorem handle_mcommit_bp (p : Basic) (dot : Dot) (cmd : Command) :
    (p.handle_mcommit dot cmd).bp = p.bp := by
  simp only [Basic.handle_mcommit]
  split <;> rfl

/-- The executor executes every entry it is handed: one result per entry. -/
theorem handleAll_to_clients_length (infos : List BasicExecutionInfo) :
    ∀ e : BasicExecutor, (e.handleAll infos).to_clients.length
      = e.to_clients.length + infos.length := by
  induction infos with
  | nil => intro e; rfl
  | cons i rest ih =>
      intro e
      show ((e.handle i).handleAll rest).to_clients.length = _
      rw [ih (e.handle i)]
      have hone : (e.handle i).to_clients.length = e.to_clients.length + 1 := by
        unfold BasicExecutor.handle
        simp
      rw [hone]
      simp
      omega

/-- C3 as stated is false on the code: at a concrete replica state,
handling the same `MCommit{dot, cmd}` a second time produces a second,
identical batch of execution info (one entry for the command's single
key), and feeding the accumulated batches to a fresh `BasicExecutor`
executes the command's key operation twice. -/
theorem basic_c3_counterexample :
    (testBasic.handle_mcommit testDot testCmd).to_executors.length = 1 ∧
    ((testBasic.handle_mcommit testDot testCmd).handle_mcommit testDot
        testCmd).to_executors.length = 2 ∧
    (BasicExecutor.handleAll ⟨[], []⟩
        ((testBasic.handle_mcommit testDot testCmd).handle_mcommit testDot
          testCmd).to_executors).to_clients.length = 2 :=
  ⟨by decide, by decide, by decide⟩

/-- C3 (amended): handling a second identical `MCommit{dot, cmd}` is not
idempotent with respect to execution: it appends the same per-key batch of
execution info again, and the executor executes every entry it receives,
so on duplicate `MCommit` delivery the command reaches the KV store once
more per key; at-most-once execution per replica relies on each message
being delivered at most once, not on handler idempotence. -/
theorem basic_c3_duplicate_mcommit (p : Basic) (dot : Dot) (cmd : Command)
    (e : BasicExecutor) (infos : List BasicExecutionInfo) :
    ((p.handle_mcommit dot cmd).handle_mcommit dot cmd).to_executors
      = p.to_executors ++ mcommitBatch p.bp.shard_id cmd
          ++ mcommitBatch p.bp.shard_id cmd ∧
    (e.handleAll infos).to_clients.length
      = e.to_clients.length + infos.length := by
  constructor
  · rw [handle_mcommit_to_executors, handle_mcommit_to_executors,
      handle_mcommit_bp]
  · exact handleAll_to_clients_length infos e

end Fantoch
